import Mathlib

/-!
Shallow embedding of the notebook chunk-output cache manager
(`src/cpp/session/modules/rmarkdown/SessionRmdNotebook.cpp`).

Filesystem paths are modelled as lists of segments (`Path`); the C++
`std::string` document path is parsed into segments by splitting on `/`
(`resolveAliasedPath` is modelled as this parse).  The filesystem is an
association list from paths to file contents plus a list of directories.
JSON values are modelled by `JVal`; serialization followed by parsing is
modelled as the identity on `JVal` (a `FileData.rawData` stands for bytes
that do not parse as JSON).
-/

namespace RmdNotebook

/-- A filesystem path, as a list of segments. -/
abbrev Path := List String

/-- Boolean test that `base` is an initial segment of `p`
(`base` leads `p`); used to model "is inside directory". -/
def isPre : Path → Path → Bool
  | [], _ => true
  | _ :: _, [] => false
  | a :: as, b :: bs => decide (a = b) && isPre as bs

/-- Minimal JSON value model (mirrors `core::json::Value`). -/
inductive JVal where
  | null
  | jbool (b : Bool)
  | num (n : Int)
  | str (s : String)
  | arr (elems : List JVal)
  | obj (fields : List (String × JVal))

/-- Contents of a file on disk: either bytes that parse as JSON
(modelled by the parsed value) or bytes that do not. -/
inductive FileData where
  | rawData (s : String)
  | jsonData (v : JVal)

/-- Error codes surfaced by the module (mirrors `core::Error` values used). -/
inductive Err where
  | parseError
  | paramMissing
  | typeMismatch
  | notFoundError
  | ioError
deriving DecidableEq

/-- Filesystem state: files (path to contents) and existing directories. -/
structure FS where
  files : List (Path × FileData)
  dirs  : List Path

/-- First binding of a path in an association list. -/
def lookupFile : List (Path × FileData) → Path → Option FileData
  | [], _ => none
  | e :: es, p => if e.1 = p then some e.2 else lookupFile es p

/-- Read a file's contents if the file exists. -/
def FS.readFile (fs : FS) (p : Path) : Option FileData :=
  lookupFile fs.files p

/-- Whether a directory exists at `p`. -/
def FS.hasDir (fs : FS) (p : Path) : Bool :=
  fs.dirs.any (fun d => decide (d = p))

/-- Existence test `FilePath::exists`: anything (file or directory) exists at `p`. -/
def FS.pathExists (fs : FS) (p : Path) : Bool :=
  (fs.readFile p).isSome || fs.hasDir p

/-- Removal `FilePath::removeIfExists`: removes the file or directory at `p`,
recursively (everything led by `p` disappears). -/
def FS.removeIfExists (fs : FS) (p : Path) : FS :=
  { files := fs.files.filter (fun e => !(isPre p e.1)),
    dirs  := fs.dirs.filter (fun d => !(isPre p d)) }

/-- Directory creation `FilePath::ensureDirectory`. -/
def FS.ensureDirectory (fs : FS) (p : Path) : FS :=
  if fs.hasDir p then fs else { fs with dirs := p :: fs.dirs }

/-- Overwriting file write. -/
def FS.writeFile (fs : FS) (p : Path) (d : FileData) : FS :=
  { fs with files := (p, d) :: fs.files.filter (fun e => !(decide (e.1 = p))) }

/-- Key transformation performed by a directory rename: everything led by
`src` is re-rooted at `dst`. -/
def movePath (src dst p : Path) : Path :=
  if isPre src p then dst ++ p.drop src.length else p

/-- Directory move `FilePath::move` of `src` to `dst`. -/
def FS.moveDir (fs : FS) (src dst : Path) : FS :=
  { files := fs.files.map (fun e => (movePath src dst e.1, e.2)),
    dirs  := fs.dirs.map (movePath src dst) }

/-- Split a character list at every occurrence of a separator character
(the splitting primitive behind `core::algorithm::split` and the path
parsing; empty pieces are kept, as the C++ splitters do). -/
def splitChars (sep : Char) : List Char → List String
  | [] => [""]
  | c :: cs =>
    let r := splitChars sep cs
    if c = sep then "" :: r
    else
      match r with
      | [] => [String.mk [c]]
      | h :: t => String.mk (c :: h.data) :: t

/-- Segment-wise parse of a path string on `/` (models
`module_context::resolveAliasedPath` for document paths and
`algorithm::split(uri, "/")` for request URIs). -/
def parsePath (s : String) : Path := splitChars '/' s.data

/-- Rejoin name pieces with dots (used to rebuild a multi-dot stem). -/
def joinDots : List String → String
  | [] => ""
  | [s] => s
  | s :: rest => s ++ "." ++ joinDots rest

/-- Stem of a filename, as `FilePath::stem`: the filename with its last extension removed. -/
def stemOf (filename : String) : String :=
  match splitChars '.' filename.data with
  | [] => filename
  | [_] => filename
  | ps => joinDots ps.dropLast

/-- Cache folder resolver `chunkCacheFolder`: the cache folder for a document identity.  An
unsaved document (empty path) lives under
`scratch/unsaved-notebooks/<id>.Rnb.cached`; a saved one next to the
document itself, `<parent>/<stem>.Rnb.cached`.  The configured scratch
root (`module_context::userScratchPath`) is passed explicitly. -/
def chunkCacheFolder (scratch : Path) (docPath docId : String) : Path :=
  if docPath = "" then
    (scratch ++ ["unsaved-notebooks"]) ++ [docId ++ ".Rnb.cached"]
  else
    let p := parsePath docPath
    p.dropLast ++ [stemOf (p.getLastD "") ++ ".Rnb.cached"]

/-- Sidecar path `chunkDefinitionsPath`: the sidecar file inside the cache folder. -/
def chunkDefinitionsPath (scratch : Path) (docPath docId : String) : Path :=
  chunkCacheFolder scratch docPath docId ++ ["chunks.json"]

/-- Artifact path `chunkOutputPath`: the artifact file for one chunk. -/
def chunkOutputPath (scratch : Path) (docPath docId chunkId : String) : Path :=
  chunkCacheFolder scratch docPath docId ++ [chunkId ++ ".html"]

/-! ### Helper lemmas about segment paths -/

theorem isPre_append_self (p t : Path) : isPre p (p ++ t) = true := by
  induction p with
  | nil => rfl
  | cons a as ih => simp [isPre, ih]

theorem isPre_refl (p : Path) : isPre p p = true := by
  simpa using isPre_append_self p []

theorem exists_of_isPre {p q : Path} (h : isPre p q = true) : ∃ t, q = p ++ t := by
  induction p generalizing q with
  | nil => exact ⟨q, rfl⟩
  | cons a as ih =>
    cases q with
    | nil => simp [isPre] at h
    | cons b bs =>
      simp only [isPre, Bool.and_eq_true, decide_eq_true_eq] at h
      obtain ⟨t, ht⟩ := ih h.2
      exact ⟨t, by simp [h.1, ht]⟩

theorem append_drop_of_isPre {p q : Path} (h : isPre p q = true) :
    p ++ q.drop p.length = q := by
  obtain ⟨t, rfl⟩ := exists_of_isPre h
  simp [List.drop_left]

theorem preOr {a b c : Path} (ha : isPre a c = true) (hb : isPre b c = true) :
    isPre a b = true ∨ isPre b a = true := by
  induction a generalizing b c with
  | nil => exact Or.inl rfl
  | cons x as ih =>
    cases b with
    | nil => exact Or.inr rfl
    | cons y bs =>
      cases c with
      | nil => simp [isPre] at ha
      | cons z cs =>
        simp only [isPre, Bool.and_eq_true, decide_eq_true_eq] at ha hb
        have hxy : x = y := ha.1.trans hb.1.symm
        rcases ih ha.2 hb.2 with h | h
        · exact Or.inl (by simp [isPre, hxy, h])
        · exact Or.inr (by simp [isPre, hxy, h])

theorem eq_of_isPre_snoc {base : Path} {x y : String}
    (h : isPre (base ++ [x]) (base ++ [y]) = true) : x = y := by
  obtain ⟨t, ht⟩ := exists_of_isPre h
  rw [List.append_assoc] at ht
  have h2 : [y] = [x] ++ t := List.append_cancel_left ht
  have h3 : x :: t = y :: ([] : Path) := by simpa using h2.symm
  exact (List.cons_eq_cons.mp h3).1

theorem isPre_snoc_of_ne {base : Path} {x y : String} (h : x ≠ y) :
    isPre (base ++ [x]) (base ++ [y]) = false := by
  cases he : isPre (base ++ [x]) (base ++ [y]) with
  | false => rfl
  | true => exact absurd (eq_of_isPre_snoc he) h

/-! ### Helper lemmas about strings -/

/-- Last character of a string, if any. -/
def lastChar (s : String) : Option Char := s.data.getLast?

theorem lastChar_append (x t : String) (h : t ≠ "") : lastChar (x ++ t) = lastChar t := by
  have hd : t.data ≠ [] := by
    intro hnil
    apply h
    have h2 : t.data = ("" : String).data := by rw [hnil]
    exact String.ext h2
  simp only [lastChar, String.data_append]
  exact List.getLast?_append_of_ne_nil _ hd

theorem ne_of_lastChar_ne {p q : String} (h : lastChar p ≠ lastChar q) : p ≠ q :=
  fun e => h (by rw [e])

theorem strCancelRight {a b : String} (s : String) (h : a ++ s = b ++ s) : a = b := by
  have hd : a.data ++ s.data = b.data ++ s.data := by
    have := congrArg String.data h
    simpa [String.data_append] using this
  cases a with | mk da => cases b with | mk db =>
    simp only at hd ⊢
    exact congrArg String.mk (List.append_cancel_right hd)

theorem html_ne_files (x y : String) : x ++ ".html" ≠ y ++ "_files" := by
  apply ne_of_lastChar_ne
  rw [lastChar_append x ".html" (by decide), lastChar_append y "_files" (by decide)]
  decide

theorem html_ne_chunksJson (x : String) : x ++ ".html" ≠ "chunks.json" := by
  apply ne_of_lastChar_ne
  rw [lastChar_append x ".html" (by decide)]
  decide

theorem files_ne_chunksJson (x : String) : x ++ "_files" ≠ "chunks.json" := by
  apply ne_of_lastChar_ne
  rw [lastChar_append x "_files" (by decide)]
  decide

/-! ### Lexicographic string comparison (models `std::string::operator<`;
byte-wise UTF-8 comparison orders exactly like code-point comparison) -/

def charListLt : List Char → List Char → Bool
  | [], [] => false
  | [], _ :: _ => true
  | _ :: _, [] => false
  | a :: as, b :: bs => if a < b then true else if b < a then false else charListLt as bs

def strLtB (a b : String) : Bool := charListLt a.data b.data

/-- Non-strict comparison used by insertion into a sorted list. -/
def strLeB (a b : String) : Bool := !(strLtB b a)

theorem charListLt_irrefl (l : List Char) : charListLt l l = false := by
  induction l with
  | nil => rfl
  | cons a as ih => simp [charListLt, lt_irrefl, ih]

theorem charListLt_asymm {l1 l2 : List Char} (h : charListLt l1 l2 = true) :
    charListLt l2 l1 = false := by
  induction l1 generalizing l2 with
  | nil =>
    cases l2 with
    | nil => simp [charListLt] at h
    | cons b bs => rfl
  | cons a as ih =>
    cases l2 with
    | nil => simp [charListLt] at h
    | cons b bs =>
      by_cases hab : a < b
      · simp [charListLt, hab, lt_asymm hab]
      · by_cases hba : b < a
        · simp [charListLt, hab, hba] at h
        · simp only [charListLt, if_neg hab, if_neg hba] at h
          simp [charListLt, hab, hba, ih h]

theorem charListLt_eq_of_not {l1 l2 : List Char} (h1 : charListLt l1 l2 = false)
    (h2 : charListLt l2 l1 = false) : l1 = l2 := by
  induction l1 generalizing l2 with
  | nil =>
    cases l2 with
    | nil => rfl
    | cons b bs => simp [charListLt] at h1
  | cons a as ih =>
    cases l2 with
    | nil => simp [charListLt] at h2
    | cons b bs =>
      by_cases hab : a < b
      · simp [charListLt, hab] at h1
      · by_cases hba : b < a
        · simp [charListLt, hba, lt_asymm hba] at h2
        · have hae : a = b := le_antisymm (not_lt.mp hba) (not_lt.mp hab)
          simp only [charListLt, if_neg hab, if_neg hba] at h1
          simp only [charListLt, if_neg hba, if_neg hab] at h2
          rw [hae, ih h1 h2]

theorem charListLt_trans {l1 l2 l3 : List Char} (h1 : charListLt l1 l2 = true)
    (h2 : charListLt l2 l3 = true) : charListLt l1 l3 = true := by
  induction l1 generalizing l2 l3 with
  | nil =>
    cases l3 with
    | nil =>
      cases l2 with
      | nil => exact h1
      | cons b bs => simp [charListLt] at h2
    | cons c cs => rfl
  | cons a as ih =>
    cases l2 with
    | nil => simp [charListLt] at h1
    | cons b bs =>
      cases l3 with
      | nil => simp [charListLt] at h2
      | cons c cs =>
        by_cases hab : a < b <;> by_cases hbc : b < c
        · simp [charListLt, lt_trans hab hbc]
        · by_cases hcb : c < b
          · simp [charListLt, hbc, hcb] at h2
          · have hbe : b = c := le_antisymm (not_lt.mp hcb) (not_lt.mp hbc)
            subst hbe
            simp [charListLt, hab]
        · by_cases hba : b < a
          · simp [charListLt, hab, hba] at h1
          · have hae : a = b := le_antisymm (not_lt.mp hba) (not_lt.mp hab)
            subst hae
            simp [charListLt, hbc]
        · by_cases hba : b < a
          · simp [charListLt, hab, hba] at h1
          · by_cases hcb : c < b
            · simp [charListLt, hbc, hcb] at h2
            · have hae : a = b := le_antisymm (not_lt.mp hba) (not_lt.mp hab)
              have hbe : b = c := le_antisymm (not_lt.mp hcb) (not_lt.mp hbc)
              subst hae; subst hbe
              simp only [charListLt, if_neg hab, if_neg hba] at h1 h2 ⊢
              exact ih h1 h2

theorem strLtB_irrefl (s : String) : strLtB s s = false := charListLt_irrefl s.data

theorem strLtB_asymm {a b : String} (h : strLtB a b = true) : strLtB b a = false :=
  charListLt_asymm h

theorem strLtB_eq_of_not {a b : String} (h1 : strLtB a b = false)
    (h2 : strLtB b a = false) : a = b := by
  cases a with | mk da => cases b with | mk db =>
    exact congrArg String.mk (charListLt_eq_of_not h1 h2)

theorem strLtB_trans {a b c : String} (h1 : strLtB a b = true)
    (h2 : strLtB b c = true) : strLtB a c = true := charListLt_trans h1 h2

theorem strLtB_ne {a b : String} (h : strLtB a b = true) : a ≠ b := by
  intro he; rw [he, strLtB_irrefl] at h; exact Bool.false_ne_true h

/-! ### Sorting (models `std::sort` over `std::vector<std::string>`:
the result is the sorted permutation of the input) -/

def insertSorted (x : String) : List String → List String
  | [] => [x]
  | y :: ys => if strLeB x y then x :: y :: ys else y :: insertSorted x ys

def sortStrings : List String → List String
  | [] => []
  | x :: xs => insertSorted x (sortStrings xs)

/-- Ascending order: no later element is strictly below an earlier one. -/
abbrev StrSorted (l : List String) : Prop := l.Pairwise (fun a b => strLtB b a = false)

theorem insertSorted_perm (x : String) (l : List String) :
    (insertSorted x l).Perm (x :: l) := by
  induction l with
  | nil => exact List.Perm.refl _
  | cons y ys ih =>
    cases h : strLeB x y with
    | true => simp [insertSorted, h]
    | false =>
      simp only [insertSorted, h, Bool.false_eq_true, if_false]
      exact (List.Perm.cons y ih).trans (List.Perm.swap x y ys)

theorem sortStrings_perm (l : List String) : (sortStrings l).Perm l := by
  induction l with
  | nil => exact List.Perm.refl _
  | cons x xs ih => exact (insertSorted_perm x (sortStrings xs)).trans (ih.cons x)

theorem mem_insertSorted {x z : String} {l : List String} :
    z ∈ insertSorted x l ↔ z = x ∨ z ∈ l := by
  rw [(insertSorted_perm x l).mem_iff]; simp

theorem insertSorted_sorted {x : String} {l : List String} (h : StrSorted l) :
    StrSorted (insertSorted x l) := by
  induction l with
  | nil => simp [insertSorted]
  | cons y ys ih =>
    rcases List.pairwise_cons.mp h with ⟨hy, hys⟩
    cases hxy : strLeB x y with
    | true =>
      have hyx : strLtB y x = false := by simpa [strLeB] using hxy
      simp only [insertSorted, hxy, if_true]
      refine List.pairwise_cons.mpr ⟨?_, h⟩
      intro z hz
      rcases List.mem_cons.mp hz with rfl | hzys
      · exact hyx
      · -- from x below-or-equal y and y below-or-equal z conclude the same for x, z
        have hzy : strLtB z y = false := hy z hzys
        cases hzx : strLtB z x with
        | false => rfl
        | true =>
          cases hyz : strLtB y z with
          | true => exact absurd (strLtB_trans hyz hzx) (by simp [hyx])
          | false =>
            have hze : y = z := strLtB_eq_of_not hyz hzy
            exact absurd (hze ▸ hzx) (by simp [hyx])
    | false =>
      have hyx : strLtB y x = true := by simpa [strLeB] using hxy
      simp only [insertSorted, hxy, Bool.false_eq_true, if_false]
      refine List.pairwise_cons.mpr ⟨?_, ih hys⟩
      intro z hz
      rcases mem_insertSorted.mp hz with rfl | hzys
      · exact strLtB_asymm hyx
      · exact hy z hzys

theorem sortStrings_sorted (l : List String) : StrSorted (sortStrings l) := by
  induction l with
  | nil => exact List.Pairwise.nil
  | cons x xs ih => exact insertSorted_sorted ih

/-! ### `std::set_difference` on sorted ranges (multiset semantics) -/

/-- Model of `std::set_difference` over sorted string ranges.  The `fuel` argument,
instantiated with the total length of the two ranges (a strict bound on
the recursion depth), makes the merge recursion structural; the zero-fuel
fallback is unreachable at that instantiation. -/
def setDifferenceFuel : Nat → List String → List String → List String
  | _, [], _ => []
  | _, x :: xs, [] => x :: xs
  | 0, _ :: _, _ :: _ => []
  | fuel + 1, x :: xs, y :: ys =>
    if strLtB x y then x :: setDifferenceFuel fuel xs (y :: ys)
    else if strLtB y x then setDifferenceFuel fuel (x :: xs) ys
    else setDifferenceFuel fuel xs ys

def setDifference (l1 l2 : List String) : List String :=
  setDifferenceFuel (l1.length + l2.length) l1 l2

theorem setDifferenceFuel_subset (fuel : Nat) :
    ∀ (l1 l2 : List String) {z : String},
      z ∈ setDifferenceFuel fuel l1 l2 → z ∈ l1 := by
  induction fuel with
  | zero =>
    intro l1 l2 z h
    cases l1 with
    | nil => simp [setDifferenceFuel] at h
    | cons x xs =>
      cases l2 with
      | nil => simpa [setDifferenceFuel] using h
      | cons y ys => simp [setDifferenceFuel] at h
  | succ n ih =>
    intro l1 l2 z h
    cases l1 with
    | nil => simp [setDifferenceFuel] at h
    | cons x xs =>
      cases l2 with
      | nil => simpa [setDifferenceFuel] using h
      | cons y ys =>
        simp only [setDifferenceFuel] at h
        by_cases hab : strLtB x y = true
        · rw [if_pos hab] at h
          rcases List.mem_cons.mp h with rfl | h2
          · exact List.mem_cons_self _ _
          · exact List.mem_cons_of_mem _ (ih xs (y :: ys) h2)
        · rw [if_neg hab] at h
          by_cases hba : strLtB y x = true
          · rw [if_pos hba] at h
            exact ih (x :: xs) ys h
          · rw [if_neg hba] at h
            exact List.mem_cons_of_mem _ (ih xs ys h)

theorem setDifference_subset {l1 l2 : List String} {z : String}
    (h : z ∈ setDifference l1 l2) : z ∈ l1 :=
  setDifferenceFuel_subset _ l1 l2 h

theorem count_lt_of_mem_setDifferenceFuel (z : String) (fuel : Nat) :
    ∀ (l1 l2 : List String), StrSorted l1 → StrSorted l2 →
      z ∈ setDifferenceFuel fuel l1 l2 → l2.count z < l1.count z := by
  induction fuel with
  | zero =>
    intro l1 l2 _ _ hm
    cases l1 with
    | nil => simp [setDifferenceFuel] at hm
    | cons x xs =>
      cases l2 with
      | nil =>
        simp only [setDifferenceFuel] at hm
        simpa using List.count_pos_iff.mpr hm
      | cons y ys => simp [setDifferenceFuel] at hm
  | succ n ih =>
    intro l1 l2 h1 h2 hm
    cases l1 with
    | nil => simp [setDifferenceFuel] at hm
    | cons x xs =>
      cases l2 with
      | nil =>
        simp only [setDifferenceFuel] at hm
        simpa using List.count_pos_iff.mpr hm
      | cons y ys =>
        simp only [setDifferenceFuel] at hm
        rcases List.pairwise_cons.mp h1 with ⟨ha, has⟩
        rcases List.pairwise_cons.mp h2 with ⟨hb, hbs⟩
        by_cases hab : strLtB x y = true
        · rw [if_pos hab] at hm
          rcases List.mem_cons.mp hm with rfl | hm2
          · have hnot : z ∉ y :: ys := by
              intro hzmem
              rcases List.mem_cons.mp hzmem with rfl | hzys
              · rw [strLtB_irrefl] at hab
                exact Bool.false_ne_true hab
              · rw [hb z hzys] at hab
                exact Bool.false_ne_true hab
            rw [List.count_eq_zero.mpr hnot]
            exact List.count_pos_iff.mpr (List.mem_cons_self _ _)
          · have ihh := ih xs (y :: ys) has h2 hm2
            have hle : xs.count z ≤ (x :: xs).count z := by
              rw [List.count_cons]
              split <;> omega
            omega
        · rw [if_neg hab] at hm
          by_cases hba : strLtB y x = true
          · rw [if_pos hba] at hm
            have ihh := ih (x :: xs) ys h1 hbs hm
            have hzy : z ≠ y := by
              rcases List.mem_cons.mp (setDifferenceFuel_subset n (x :: xs) ys hm)
                with rfl | hzxs
              · intro h
                rw [h, strLtB_irrefl] at hba
                exact Bool.false_ne_true hba
              · intro h
                rw [← h] at hba
                rw [ha z hzxs] at hba
                exact Bool.false_ne_true hba
            have hcy : (y :: ys).count z = ys.count z := by
              simp [List.count_cons, hzy]
            omega
          · rw [if_neg hba] at hm
            have hae : x = y :=
              strLtB_eq_of_not (by simpa using hab) (by simpa using hba)
            subst hae
            have ihh := ih xs ys has hbs hm
            by_cases hzx : z = x
            · subst hzx
              simp only [List.count_cons, beq_self_eq_true, if_pos rfl]
              omega
            · simp only [List.count_cons, beq_iff_eq, if_neg hzx]
              omega

theorem count_lt_of_mem_setDifference (z : String) (l1 l2 : List String)
    (h1 : StrSorted l1) (h2 : StrSorted l2) (hm : z ∈ setDifference l1 l2) :
    l2.count z < l1.count z :=
  count_lt_of_mem_setDifferenceFuel z _ l1 l2 h1 h2 hm

/-! ### Chunk-ID extraction and reconciliation (`extractChunkIds`, `cleanChunks`) -/

/-- Chunk-ID extraction `extractChunkIds`: pulls `chunk_id` out of each JSON object in the array,
silently skipping entries that are not objects or have no string `chunk_id`. -/
def extractChunkIds (chunkOutputs : List JVal) : List String :=
  chunkOutputs.filterMap fun v =>
    match v with
    | .obj fields =>
      match fields.find? (fun kv => decide (kv.1 = "chunk_id")) with
      | some (_, .str s) => some s
      | _ => none
    | _ => none

/-- The stale identifiers computed inside `cleanChunks`: the
`std::set_difference` of the sorted old and new chunk-ID vectors. -/
def staleIdsOf (oldDefs newDefs : List JVal) : List String :=
  setDifference (sortStrings (extractChunkIds oldDefs))
    (sortStrings (extractChunkIds newDefs))

/-- Cleanup for one stale chunk: remove `<id>.html` and `<id>_files`. -/
def removeStale (cacheDir : Path) (fs : FS) (staleId : String) : FS :=
  (fs.removeIfExists (cacheDir ++ [staleId ++ ".html"])).removeIfExists
    (cacheDir ++ [staleId ++ "_files"])

/-- Reconciler `cleanChunks`: given old and new chunk definitions, removes the artifact
file and asset folder of every chunk in the old set but not in the new set. -/
def cleanChunks (fs : FS) (cacheDir : Path) (oldDefs newDefs : List JVal) : FS :=
  (staleIdsOf oldDefs newDefs).foldl (removeStale cacheDir) fs

theorem not_mem_staleIds {oldIds newIds : List String} {z : String}
    (hnd : oldIds.Nodup) (hm : z ∈ newIds) :
    z ∉ setDifference (sortStrings oldIds) (sortStrings newIds) := by
  intro hz
  have hlt := count_lt_of_mem_setDifference z _ _ (sortStrings_sorted oldIds)
    (sortStrings_sorted newIds) hz
  rw [(sortStrings_perm oldIds).count_eq z, (sortStrings_perm newIds).count_eq z] at hlt
  have hle : oldIds.count z ≤ 1 := List.nodup_iff_count_le_one.mp hnd z
  have hpos : 0 < newIds.count z := List.count_pos_iff.mpr hm
  omega

/-! ### Lookup/removal interaction lemmas on the filesystem model -/

theorem lookupFile_filter (l : List (Path × FileData)) (f : Path → Bool) (k : Path)
    (hk : f k = true) :
    lookupFile (l.filter (fun e => f e.1)) k = lookupFile l k := by
  induction l with
  | nil => rfl
  | cons e es ih =>
    rw [List.filter_cons]
    cases hf : f e.1 with
    | true =>
      simp only [if_pos rfl]
      by_cases he : e.1 = k
      · simp [lookupFile, he]
      · simp [lookupFile, he, ih]
    | false =>
      have he : e.1 ≠ k := by
        intro h
        rw [h, hk] at hf
        exact Bool.noConfusion hf
      simp only [Bool.false_eq_true, if_false]
      rw [ih]
      simp [lookupFile, he]

theorem lookupFile_filter_none (l : List (Path × FileData)) (f : Path → Bool) (k : Path)
    (hk : f k = false) :
    lookupFile (l.filter (fun e => f e.1)) k = none := by
  induction l with
  | nil => rfl
  | cons e es ih =>
    rw [List.filter_cons]
    cases hf : f e.1 with
    | true =>
      have he : e.1 ≠ k := by
        intro h
        rw [h, hk] at hf
        exact Bool.false_ne_true hf
      simp [lookupFile, he, ih]
    | false =>
      simp only [Bool.false_eq_true, if_false]
      exact ih

theorem anyEq_filter (l : List Path) (f : Path → Bool) (k : Path) (hk : f k = true) :
    (l.filter f).any (fun d => decide (d = k)) = l.any (fun d => decide (d = k)) := by
  induction l with
  | nil => rfl
  | cons d ds ih =>
    rw [List.filter_cons]
    cases hf : f d with
    | true => simp [List.any_cons, ih]
    | false =>
      have hd : d ≠ k := by
        intro h
        rw [h, hk] at hf
        exact Bool.noConfusion hf
      simp [List.any_cons, hd, ih]

theorem anyEq_filter_none (l : List Path) (f : Path → Bool) (k : Path) (hk : f k = false) :
    (l.filter f).any (fun d => decide (d = k)) = false := by
  induction l with
  | nil => rfl
  | cons d ds ih =>
    rw [List.filter_cons]
    cases hf : f d with
    | true =>
      have hd : d ≠ k := by
        intro h
        rw [h, hk] at hf
        exact Bool.false_ne_true hf
      simp [List.any_cons, hd, ih]
    | false =>
      simp only [Bool.false_eq_true, if_false]
      exact ih

theorem readFile_removeIfExists_not_pre (fs : FS) {p k : Path} (h : isPre p k = false) :
    (fs.removeIfExists p).readFile k = fs.readFile k := by
  unfold FS.removeIfExists FS.readFile
  exact lookupFile_filter _ (fun q => !(isPre p q)) _ (by simp [h])

theorem hasDir_removeIfExists_not_pre (fs : FS) {p k : Path} (h : isPre p k = false) :
    (fs.removeIfExists p).hasDir k = fs.hasDir k := by
  unfold FS.removeIfExists FS.hasDir
  exact anyEq_filter _ _ _ (by simp [h])

theorem readFile_removeIfExists_pre (fs : FS) {p k : Path} (h : isPre p k = true) :
    (fs.removeIfExists p).readFile k = none := by
  unfold FS.removeIfExists FS.readFile
  exact lookupFile_filter_none _ (fun q => !(isPre p q)) _ (by simp [h])

theorem hasDir_removeIfExists_pre (fs : FS) {p k : Path} (h : isPre p k = true) :
    (fs.removeIfExists p).hasDir k = false := by
  unfold FS.removeIfExists FS.hasDir
  exact anyEq_filter_none _ _ _ (by simp [h])

theorem foldl_removeStale_preserves (cacheDir : Path) (ids : List String) (fs : FS)
    {k : Path}
    (hk : ∀ s ∈ ids, isPre (cacheDir ++ [s ++ ".html"]) k = false ∧
      isPre (cacheDir ++ [s ++ "_files"]) k = false) :
    (ids.foldl (removeStale cacheDir) fs).readFile k = fs.readFile k ∧
    (ids.foldl (removeStale cacheDir) fs).hasDir k = fs.hasDir k := by
  induction ids generalizing fs with
  | nil => exact ⟨rfl, rfl⟩
  | cons s ss ih =>
    have hs := hk s (List.mem_cons_self _ _)
    have step1 : (removeStale cacheDir fs s).readFile k = fs.readFile k := by
      unfold removeStale
      rw [readFile_removeIfExists_not_pre _ hs.2, readFile_removeIfExists_not_pre _ hs.1]
    have step2 : (removeStale cacheDir fs s).hasDir k = fs.hasDir k := by
      unfold removeStale
      rw [hasDir_removeIfExists_not_pre _ hs.2, hasDir_removeIfExists_not_pre _ hs.1]
    simp only [List.foldl_cons]
    obtain ⟨h1, h2⟩ := ih (removeStale cacheDir fs s)
      (fun t ht => hk t (List.mem_cons_of_mem _ ht))
    exact ⟨h1.trans step1, h2.trans step2⟩

theorem strSnoc_ne {x y : String} (s : String) (h : x ≠ y) : x ++ s ≠ y ++ s :=
  fun he => h (strCancelRight s he)

/-! ### Definition store (`getChunkDefs`, `setChunkDefs`) -/

/-- Definition load `getChunkDefs`: reads the sidecar file.  The C++ out-parameter `pDefs`
is modelled by the `Option` in the result: `.ok none` models returning
`Success()` without assigning `*pDefs` (the sidecar file does not exist),
`.ok (some v)` models assigning `v` to `*pDefs`. -/
def getChunkDefs (fs : FS) (scratch : Path) (docPath docId : String) :
    Except Err (Option JVal) :=
  let defs := chunkDefinitionsPath scratch docPath docId
  if !(fs.pathExists defs) then .ok none
  else
    match fs.readFile defs with
    | none => .error .ioError
    | some (.rawData _) => .error .parseError
    | some (.jsonData v) =>
      match v with
      | .obj fields =>
        match fields.find? (fun kv => decide (kv.1 = "chunk_definitions")) with
        | some (_, .arr a) => .ok (some (.arr a))
        | some _ => .error .typeMismatch
        | none => .error .paramMissing
      | _ => .error .parseError

/-- Definition store `setChunkDefs`: ensures the cache folder exists, loads the old
definitions (a load failure is logged, and the cleanup is skipped, but the
write proceeds), reconciles via `cleanChunks`, then overwrites the sidecar
with `{"chunk_definitions": newDefs}`.  Directory creation cannot fail in
the model, so the result is always `.ok`. -/
def setChunkDefs (fs : FS) (scratch : Path) (docPath docId : String)
    (newDefs : List JVal) : Except Err FS :=
  let defFile := chunkDefinitionsPath scratch docPath docId
  let fs1 := fs.ensureDirectory defFile.dropLast
  let fs2 :=
    match getChunkDefs fs1 scratch docPath docId with
    | .ok (some (.arr olds)) =>
      cleanChunks fs1 (chunkCacheFolder scratch docPath docId) olds newDefs
    | _ => fs1
  .ok (fs2.writeFile defFile
    (.jsonData (.obj [("chunk_definitions", .arr newDefs)])))

/-! ### Migration handler (`copyCache`, `onDocRemoved`, `onDocRenamed`) -/

/-- Recursive cache copy `copyCache`: ensure the target directory exists, then walk every child
of `src` (via `childrenRecursive`), creating directories and copying files
into the corresponding location under `dst`.  Per-item failures are logged
and skipped in the C++; the model has no failing copies. -/
def copyCache (fs : FS) (src dst : Path) : FS :=
  let fs1 := fs.ensureDirectory dst
  { files := (fs1.files.filter
        (fun e => isPre src e.1 && !(decide (e.1 = src)))).map
      (fun e => (dst ++ e.1.drop src.length, e.2)) ++ fs1.files,
    dirs := (fs1.dirs.filter
        (fun d => isPre src d && !(decide (d = src)))).map
      (fun d => dst ++ d.drop src.length) ++ fs1.dirs }

/-- Close handler `onDocRemoved`: remove (if present) the unsaved-notebooks cache folder
of the closed document. -/
def onDocRemoved (fs : FS) (scratch : Path) (docId : String) : FS :=
  fs.removeIfExists (chunkCacheFolder scratch "" docId)

/-- Rename handler `onDocRenamed`: migrate the cache folder after a rename/first save.
No-op when the old folder is missing or the new folder already exists;
move when the document was previously unsaved, recursive copy otherwise. -/
def onDocRenamed (fs : FS) (scratch : Path) (oldPath newPath docId : String) : FS :=
  let oldCacheDir := chunkCacheFolder scratch oldPath docId
  let newCacheDir := chunkCacheFolder scratch newPath docId
  if !(fs.pathExists oldCacheDir) || fs.pathExists newCacheDir then fs
  else if oldPath = "" then fs.moveDir oldCacheDir newCacheDir
  else copyCache fs oldCacheDir newCacheDir

/-! ### Output server (`handleChunkOutputRequest`) -/

/-- Response produced by the chunk-output URI handler. -/
inductive ChunkResponse where
  | noResponse
  | cacheableFile (target : Path)
  | noCacheFile (target : Path)

/-- Registry lookup `source_database::getPath`: current durable path of an open document,
from the external source-database registry. -/
def getPath (db : List (String × String)) (docId : String) : Except Err String :=
  match db.find? (fun e => decide (e.1 = docId)) with
  | some e => .ok e.2
  | none => .error .notFoundError

/-- Output server `handleChunkOutputRequest`: serve `/chunk_output/<doc-id>/...`.
Splits the URI on `/`, succeeds as a no-op if fewer than 4 pieces,
resolves the document path, joins the remaining pieces onto the cache
folder, and marks the response cacheable exactly for the `lib` folder. -/
def handleChunkOutputRequest (scratch : Path) (db : List (String × String))
    (uri : String) : Except Err ChunkResponse :=
  let parts := parsePath uri
  if parts.length < 4 then .ok .noResponse
  else
    let docId := parts.getD 2 ""
    let rest := parts.drop 3
    match getPath db docId with
    | .error e => .error e
    | .ok path =>
      let target := chunkCacheFolder scratch path docId ++ rest
      if rest.getD 0 "" = "lib" then .ok (.cacheableFile target)
      else .ok (.noCacheFile target)

/-- Lexical normalization of a path (resolving `.` and `..` segments);
used only to state where a resolved target actually points. -/
def normalizePath (p : Path) : Path :=
  p.foldl (fun acc seg =>
    if seg = ".." then acc.dropLast
    else if seg = "." then acc
    else acc ++ [seg]) []

/-! ### Replay and refresh (`replayChunkOutputs`, `refreshChunkOutput`) -/

/-- A client notification (`ClientEvent` in the C++). -/
inductive ClientEvent where
  | chunkOutput (url chunkId docId : String)
  | chunkOutputFinished (path requestId : String)

/-- Event builder `enqueueChunkOutput`: the `ChunkOutput` client event for one chunk. -/
def enqueueChunkOutput (_docPath docId chunkId : String) : ClientEvent :=
  .chunkOutput ("chunk_output" ++ "/" ++ docId ++ "/" ++ chunkId ++ ".html")
    chunkId docId

/-- Replay `replayChunkOutputs`: one chunk-output event per extracted chunk ID,
then the terminating `ChunkOutputFinished` event carrying the request. -/
def replayChunkOutputs (docPath docId requestId : String)
    (chunkOutputs : List JVal) : List ClientEvent :=
  ((extractChunkIds chunkOutputs).map (enqueueChunkOutput docPath docId)) ++
    [.chunkOutputFinished docPath requestId]

/-- Refresh handler `refreshChunkOutput`, with already-parsed parameters.  The second
component models the deferred task handed to `scheduleDelayedWork`:
`none` when no replay was scheduled, otherwise the events that the
scheduled replay will emit. -/
def refreshChunkOutput (fs : FS) (scratch : Path)
    (docPath docId requestId : String) :
    Except Err Unit × Option (List ClientEvent) :=
  match getChunkDefs fs scratch docPath docId with
  | .ok (some (.arr a)) =>
    (.ok (), some (replayChunkOutputs docPath docId requestId a))
  | _ => (.ok (), none)

/-! ### Atomic sidecar write (modelled from the spec) -/

/-- Modelled from the spec: `core::writeStringToFile` is not part of this
source file; the spec requires the sidecar write to be atomic with respect
to readers, by writing to a temporary path and renaming it into place.
The trace lists the filesystem states a concurrent reader can observe:
initial, after the temporary file is written, and after the rename. -/
def writeFileViaTempTrace (fs : FS) (p : Path) (d : FileData) : List FS :=
  let tmp := p.dropLast ++ [p.getLastD "" ++ ".tmp"]
  let fs1 := fs.writeFile tmp d
  [fs, fs1, (fs1.writeFile p d).removeIfExists tmp]

/-- Trace of per-stale-chunk removal states during `cleanChunks`. -/
def removeStaleTrace (cacheDir : Path) : List String → FS → List FS
  | [], fs => [fs]
  | sid :: rest, fs =>
    let fsA := fs.removeIfExists (cacheDir ++ [sid ++ ".html"])
    fs :: fsA ::
      removeStaleTrace cacheDir rest
        (fsA.removeIfExists (cacheDir ++ [sid ++ "_files"]))

/-- All filesystem states a reader can observe during a `setChunkDefs`
call: initial, after the cache folder is ensured, each intermediate state
of the stale-chunk cleanup, and the states of the atomic sidecar write. -/
def setChunkDefsTrace (fs : FS) (scratch : Path) (docPath docId : String)
    (newDefs : List JVal) : List FS :=
  let defFile := chunkDefinitionsPath scratch docPath docId
  let cacheDir := chunkCacheFolder scratch docPath docId
  let fs1 := fs.ensureDirectory defFile.dropLast
  let cleanStates :=
    match getChunkDefs fs1 scratch docPath docId with
    | .ok (some (.arr olds)) => removeStaleTrace cacheDir (staleIdsOf olds newDefs) fs1
    | _ => [fs1]
  fs :: (cleanStates ++
    writeFileViaTempTrace (cleanStates.getLastD fs1) defFile
      (.jsonData (.obj [("chunk_definitions", .arr newDefs)])))

/-! ### Further filesystem lemmas (writes, moves, copies) -/

theorem append_nil_of_append_eq {l t : Path} (h : l ++ t = l) : t = [] :=
  List.append_cancel_left (h.trans (List.append_nil l).symm)

theorem snoc_inj {base : Path} {x y : String} (h : base ++ [x] = base ++ [y]) :
    x = y := by
  have h2 := List.append_cancel_left h
  simpa using h2

theorem notPre_of_sep {src dst : Path} (hsd : isPre src dst = false)
    (hds : isPre dst src = false) (rel : Path) :
    isPre dst (src ++ rel) = false := by
  cases hh : isPre dst (src ++ rel) with
  | false => rfl
  | true =>
    rcases preOr hh (isPre_append_self src rel) with h | h
    · rw [h] at hds; exact Bool.noConfusion hds
    · rw [h] at hsd; exact Bool.noConfusion hsd

theorem readFile_ensureDirectory (fs : FS) (p k : Path) :
    (fs.ensureDirectory p).readFile k = fs.readFile k := by
  unfold FS.ensureDirectory
  split <;> rfl

theorem hasDir_ensureDirectory (fs : FS) (p k : Path) :
    (fs.ensureDirectory p).hasDir k = (fs.hasDir p && fs.hasDir k ||
      !(fs.hasDir p) && (decide (p = k) || fs.hasDir k)) := by
  unfold FS.ensureDirectory
  cases h : fs.hasDir p with
  | true => simp [h]
  | false => simp [h, FS.hasDir, List.any_cons]

theorem readFile_writeFile (fs : FS) (q k : Path) (d : FileData) :
    (fs.writeFile q d).readFile k = if q = k then some d else fs.readFile k := by
  by_cases h : q = k
  · subst h
    simp [FS.writeFile, FS.readFile, lookupFile]
  · rw [if_neg h]
    unfold FS.writeFile FS.readFile
    simp only [lookupFile, if_neg h]
    exact lookupFile_filter _ (fun x => !(decide (x = q))) _
      (by simp [Ne.symm h])

theorem lookupFile_append_of_right_none {l1 l2 : List (Path × FileData)} {k : Path}
    (h : lookupFile l2 k = none) : lookupFile (l1 ++ l2) k = lookupFile l1 k := by
  induction l1 with
  | nil => simpa using h
  | cons e es ih =>
    by_cases he : e.1 = k
    · simp [lookupFile, he]
    · simp [lookupFile, he, ih]

theorem lookupFile_append_of_left_skip {l1 : List (Path × FileData)}
    (l2 : List (Path × FileData)) {k : Path} (h : ∀ e ∈ l1, e.1 ≠ k) :
    lookupFile (l1 ++ l2) k = lookupFile l2 k := by
  induction l1 with
  | nil => rfl
  | cons e es ih =>
    have he := h e (List.mem_cons_self _ _)
    simp only [List.cons_append, lookupFile, if_neg he]
    exact ih (fun x hx => h x (List.mem_cons_of_mem _ hx))

theorem lookupFile_none_of_all_ne {l : List (Path × FileData)} {k : Path}
    (h : ∀ e ∈ l, e.1 ≠ k) : lookupFile l k = none := by
  induction l with
  | nil => rfl
  | cons e es ih =>
    have he := h e (List.mem_cons_self _ _)
    simp only [lookupFile, if_neg he]
    exact ih (fun x hx => h x (List.mem_cons_of_mem _ hx))

theorem anyEq_false_of_all_ne {l : List Path} {k : Path}
    (h : ∀ d ∈ l, d ≠ k) : l.any (fun d => decide (d = k)) = false := by
  induction l with
  | nil => rfl
  | cons d ds ih =>
    have hd := h d (List.mem_cons_self _ _)
    simp only [List.any_cons, hd, decide_False, Bool.false_or]
    exact ih (fun x hx => h x (List.mem_cons_of_mem _ hx))

/-! Lemmas about `FS.moveDir` -/

theorem lookupFile_moveDir (l : List (Path × FileData)) (src dst : Path)
    (hl : ∀ e ∈ l, isPre dst e.1 = false) (rel : Path) :
    lookupFile (l.map (fun e => (movePath src dst e.1, e.2))) (dst ++ rel) =
      lookupFile l (src ++ rel) := by
  induction l with
  | nil => rfl
  | cons e es ih =>
    have he := hl e (List.mem_cons_self _ _)
    have ihh := ih (fun x hx => hl x (List.mem_cons_of_mem _ hx))
    simp only [List.map_cons, lookupFile]
    by_cases hp : isPre src e.1 = true
    · obtain ⟨t, he1⟩ := exists_of_isPre hp
      rw [he1] at hp ⊢
      simp only [movePath, hp, if_true, List.drop_left]
      by_cases ht : t = rel
      · subst ht; simp
      · have h1 : dst ++ t ≠ dst ++ rel := fun hh => ht (List.append_cancel_left hh)
        have h2 : src ++ t ≠ src ++ rel := fun hh => ht (List.append_cancel_left hh)
        simp only [if_neg h1, if_neg h2]
        exact ihh
    · have hp' : isPre src e.1 = false := by
        cases hpp : isPre src e.1 with
        | false => rfl
        | true => exact absurd hpp hp
      simp only [movePath, hp', Bool.false_eq_true, if_false]
      have h1 : e.1 ≠ dst ++ rel := by
        intro hh
        rw [hh, isPre_append_self] at he
        exact Bool.noConfusion he
      have h2 : e.1 ≠ src ++ rel := by
        intro hh
        rw [hh, isPre_append_self] at hp'
        exact Bool.noConfusion hp'
      simp only [if_neg h1, if_neg h2]
      exact ihh

theorem anyEq_moveDir (l : List Path) (src dst : Path)
    (hl : ∀ d ∈ l, isPre dst d = false) (rel : Path) :
    (l.map (movePath src dst)).any (fun d => decide (d = dst ++ rel)) =
      l.any (fun d => decide (d = src ++ rel)) := by
  induction l with
  | nil => rfl
  | cons e es ih =>
    have he := hl e (List.mem_cons_self _ _)
    have ihh := ih (fun x hx => hl x (List.mem_cons_of_mem _ hx))
    simp only [List.map_cons, List.any_cons]
    by_cases hp : isPre src e = true
    · obtain ⟨t, he1⟩ := exists_of_isPre hp
      rw [he1] at hp ⊢
      simp only [movePath, hp, if_true, List.drop_left]
      by_cases ht : t = rel
      · subst ht; simp
      · have h1 : dst ++ t ≠ dst ++ rel := fun hh => ht (List.append_cancel_left hh)
        have h2 : src ++ t ≠ src ++ rel := fun hh => ht (List.append_cancel_left hh)
        simp only [h1, h2, decide_False, Bool.false_or]
        exact ihh
    · have hp' : isPre src e = false := by
        cases hpp : isPre src e with
        | false => rfl
        | true => exact absurd hpp hp
      simp only [movePath, hp', Bool.false_eq_true, if_false]
      have h1 : e ≠ dst ++ rel := by
        intro hh
        rw [hh, isPre_append_self] at he
        exact Bool.noConfusion he
      have h2 : e ≠ src ++ rel := by
        intro hh
        rw [hh, isPre_append_self] at hp'
        exact Bool.noConfusion hp'
      simp only [h1, h2, decide_False, Bool.false_or]
      exact ihh

theorem movePath_not_src {src dst p : Path} (hsd : isPre src dst = false)
    (hds : isPre dst src = false) {k : Path} (hk : isPre src k = true) :
    movePath src dst p ≠ k := by
  intro hh
  by_cases hp : isPre src p = true
  · obtain ⟨t, he1⟩ := exists_of_isPre hp
    rw [he1] at hp
    rw [show movePath src dst p = dst ++ p.drop src.length from by
      simp only [movePath, he1 ▸ hp, if_true]] at hh
    have hdk : isPre dst k = true := by
      rw [← hh]; exact isPre_append_self _ _
    rcases preOr hk hdk with h | h
    · rw [h] at hsd; exact Bool.noConfusion hsd
    · rw [h] at hds; exact Bool.noConfusion hds
  · have hp' : isPre src p = false := by
      cases hpp : isPre src p with
      | false => rfl
      | true => exact absurd hpp hp
    rw [show movePath src dst p = p from by
      simp only [movePath, hp', Bool.false_eq_true, if_false]] at hh
    rw [hh, hk] at hp'
    exact Bool.noConfusion hp'

theorem lookupFile_moveDir_src_none (l : List (Path × FileData)) (src dst : Path)
    (hsd : isPre src dst = false) (hds : isPre dst src = false) {k : Path}
    (hk : isPre src k = true) :
    lookupFile (l.map (fun e => (movePath src dst e.1, e.2))) k = none := by
  induction l with
  | nil => rfl
  | cons e es ih =>
    simp only [List.map_cons, lookupFile,
      if_neg (movePath_not_src hsd hds hk (p := e.1))]
    exact ih

theorem anyEq_moveDir_src_false (l : List Path) (src dst : Path)
    (hsd : isPre src dst = false) (hds : isPre dst src = false) {k : Path}
    (hk : isPre src k = true) :
    (l.map (movePath src dst)).any (fun d => decide (d = k)) = false := by
  induction l with
  | nil => rfl
  | cons e es ih =>
    simp only [List.map_cons, List.any_cons,
      movePath_not_src hsd hds hk (p := e), decide_False, Bool.false_or]
    exact ih

/-! Lemmas about `copyCache` -/

theorem files_ensureDirectory (fs : FS) (p : Path) :
    (fs.ensureDirectory p).files = fs.files := by
  unfold FS.ensureDirectory
  split <;> rfl

theorem hasDir_ensureDirectory_ne (fs : FS) {p k : Path} (h : p ≠ k) :
    (fs.ensureDirectory p).hasDir k = fs.hasDir k := by
  unfold FS.ensureDirectory
  split
  · rfl
  · simp [FS.hasDir, List.any_cons, h]

theorem hasDir_ensureDirectory_self (fs : FS) (p : Path) :
    (fs.ensureDirectory p).hasDir p = true := by
  by_cases h : fs.hasDir p = true
  · rw [FS.ensureDirectory, if_pos h]
    exact h
  · rw [FS.ensureDirectory, if_neg h]
    simp [FS.hasDir, List.any_cons]

theorem copied_files_pre (l : List (Path × FileData)) (src dst : Path) :
    ∀ e ∈ (l.filter (fun e => isPre src e.1 && !(decide (e.1 = src)))).map
      (fun e => (dst ++ e.1.drop src.length, e.2)), isPre dst e.1 = true := by
  intro e he
  simp only [List.mem_map, List.mem_filter] at he
  obtain ⟨x, _, rfl⟩ := he
  exact isPre_append_self _ _

theorem lookupFile_copied (l : List (Path × FileData)) (src dst : Path) {rel : Path}
    (hrel : rel ≠ []) :
    lookupFile ((l.filter (fun e => isPre src e.1 && !(decide (e.1 = src)))).map
        (fun e => (dst ++ e.1.drop src.length, e.2))) (dst ++ rel) =
      lookupFile l (src ++ rel) := by
  induction l with
  | nil => rfl
  | cons e es ih =>
    rw [List.filter_cons]
    by_cases hp : (isPre src e.1 && !(decide (e.1 = src))) = true
    · rw [if_pos hp]
      have hp2 := hp
      simp only [Bool.and_eq_true] at hp2
      obtain ⟨t, he1⟩ := exists_of_isPre hp2.1
      simp only [List.map_cons, lookupFile, he1, List.drop_left]
      by_cases ht : t = rel
      · subst ht; simp
      · have h1 : dst ++ t ≠ dst ++ rel := fun hh => ht (List.append_cancel_left hh)
        have h2 : src ++ t ≠ src ++ rel := fun hh => ht (List.append_cancel_left hh)
        simp only [if_neg h1, if_neg h2]
        exact ih
    · rw [if_neg hp]
      have h2 : e.1 ≠ src ++ rel := by
        intro hh
        apply hp
        rw [hh]
        have hns : src ++ rel ≠ src := fun hs => hrel (append_nil_of_append_eq hs)
        simp [isPre_append_self, hns]
      simp only [lookupFile, if_neg h2]
      exact ih

theorem anyEq_copied (l : List Path) (src dst : Path) {rel : Path}
    (hrel : rel ≠ []) :
    ((l.filter (fun d => isPre src d && !(decide (d = src)))).map
        (fun d => dst ++ d.drop src.length)).any
        (fun d => decide (d = dst ++ rel)) =
      l.any (fun d => decide (d = src ++ rel)) := by
  induction l with
  | nil => rfl
  | cons e es ih =>
    rw [List.filter_cons]
    by_cases hp : (isPre src e && !(decide (e = src))) = true
    · rw [if_pos hp]
      have hp2 := hp
      simp only [Bool.and_eq_true] at hp2
      obtain ⟨t, he1⟩ := exists_of_isPre hp2.1
      simp only [List.map_cons, List.any_cons, he1, List.drop_left]
      by_cases ht : t = rel
      · subst ht; simp
      · have h1 : dst ++ t ≠ dst ++ rel := fun hh => ht (List.append_cancel_left hh)
        have h2 : src ++ t ≠ src ++ rel := fun hh => ht (List.append_cancel_left hh)
        simp only [h1, h2, decide_False, Bool.false_or]
        exact ih
    · rw [if_neg hp]
      have h2 : e ≠ src ++ rel := by
        intro hh
        apply hp
        rw [hh]
        have hns : src ++ rel ≠ src := fun hs => hrel (append_nil_of_append_eq hs)
        simp [isPre_append_self, hns]
      simp only [List.any_cons, h2, decide_False, Bool.false_or]
      exact ih

theorem copyCache_readFile_outside (fs : FS) (src dst : Path) {k : Path}
    (hk : isPre dst k = false) :
    (copyCache fs src dst).readFile k = fs.readFile k := by
  have hskip : ∀ e ∈ ((fs.ensureDirectory dst).files.filter
      (fun e => isPre src e.1 && !(decide (e.1 = src)))).map
      (fun e => (dst ++ e.1.drop src.length, e.2)), e.1 ≠ k := by
    intro e he hh
    have hpre := copied_files_pre (fs.ensureDirectory dst).files src dst e he
    rw [hh, hk] at hpre
    exact Bool.noConfusion hpre
  have h1 : (copyCache fs src dst).readFile k =
      lookupFile (fs.ensureDirectory dst).files k := by
    unfold copyCache FS.readFile
    exact lookupFile_append_of_left_skip _ hskip
  rw [h1, files_ensureDirectory]
  rfl

theorem copyCache_hasDir_outside (fs : FS) (src dst : Path) {k : Path}
    (hk : isPre dst k = false) :
    (copyCache fs src dst).hasDir k = fs.hasDir k := by
  have hne : dst ≠ k := by
    intro hh
    rw [hh, isPre_refl] at hk
    exact Bool.noConfusion hk
  have hskip : ∀ d ∈ ((fs.ensureDirectory dst).dirs.filter
      (fun d => isPre src d && !(decide (d = src)))).map
      (fun d => dst ++ d.drop src.length), d ≠ k := by
    intro d hd hh
    simp only [List.mem_map, List.mem_filter] at hd
    obtain ⟨x, _, rfl⟩ := hd
    rw [← hh, isPre_append_self] at hk
    exact Bool.noConfusion hk
  have h1 : (copyCache fs src dst).hasDir k =
      (fs.ensureDirectory dst).dirs.any (fun d => decide (d = k)) := by
    simp only [copyCache, FS.hasDir]
    rw [List.any_append, anyEq_false_of_all_ne hskip, Bool.false_or]
  rw [h1]
  exact hasDir_ensureDirectory_ne fs hne

theorem copyCache_hasDir_dst (fs : FS) (src dst : Path) :
    (copyCache fs src dst).hasDir dst = true := by
  have h2 : (fs.ensureDirectory dst).dirs.any (fun d => decide (d = dst)) = true :=
    hasDir_ensureDirectory_self fs dst
  simp only [copyCache, FS.hasDir]
  rw [List.any_append, h2, Bool.or_true]

theorem copyCache_readFile_rel (fs : FS) (src dst : Path) {rel : Path}
    (hrel : rel ≠ [])
    (hfileswf : ∀ e ∈ fs.files, isPre dst e.1 = false) :
    (copyCache fs src dst).readFile (dst ++ rel) = fs.readFile (src ++ rel) := by
  have horig : ∀ e ∈ fs.files, e.1 ≠ dst ++ rel := by
    intro e he hh
    have := hfileswf e he
    rw [hh, isPre_append_self] at this
    exact Bool.noConfusion this
  have h1 : (copyCache fs src dst).readFile (dst ++ rel) =
      lookupFile ((fs.files.filter
        (fun e => isPre src e.1 && !(decide (e.1 = src)))).map
        (fun e => (dst ++ e.1.drop src.length, e.2))) (dst ++ rel) := by
    simp only [copyCache, FS.readFile, files_ensureDirectory]
    exact lookupFile_append_of_right_none (lookupFile_none_of_all_ne horig)
  rw [h1]
  exact lookupFile_copied fs.files src dst hrel

theorem copyCache_hasDir_rel (fs : FS) (src dst : Path) {rel : Path}
    (hrel : rel ≠ []) (hsd : isPre src dst = false)
    (hdirswf : ∀ d ∈ fs.dirs, isPre dst d = false) :
    (copyCache fs src dst).hasDir (dst ++ rel) = fs.hasDir (src ++ rel) := by
  have hdne : dst ≠ dst ++ rel := by
    intro hh
    exact hrel (append_nil_of_append_eq hh.symm)
  have horig : ∀ d ∈ (fs.ensureDirectory dst).dirs, d ≠ dst ++ rel := by
    intro d hd
    unfold FS.ensureDirectory at hd
    have hmem : d = dst ∨ d ∈ fs.dirs := by
      by_cases hc : fs.hasDir dst = true
      · rw [if_pos hc] at hd
        exact Or.inr hd
      · rw [if_neg hc] at hd
        simpa using hd
    rcases hmem with rfl | hmem
    · exact hdne
    · intro hh
      have := hdirswf d hmem
      rw [hh, isPre_append_self] at this
      exact Bool.noConfusion this
  have hcopy : ((fs.ensureDirectory dst).dirs.filter
      (fun d => isPre src d && !(decide (d = src)))).map
      (fun d => dst ++ d.drop src.length) =
      (fs.dirs.filter (fun d => isPre src d && !(decide (d = src)))).map
      (fun d => dst ++ d.drop src.length) := by
    unfold FS.ensureDirectory
    by_cases hc : fs.hasDir dst = true
    · rw [if_pos hc]
    · rw [if_neg hc]
      simp only [List.filter_cons, hsd, Bool.false_and, Bool.false_eq_true, if_false]
  have h1 : (copyCache fs src dst).hasDir (dst ++ rel) =
      ((fs.dirs.filter (fun d => isPre src d && !(decide (d = src)))).map
        (fun d => dst ++ d.drop src.length)).any
        (fun d => decide (d = dst ++ rel)) := by
    simp only [copyCache, FS.hasDir]
    rw [List.any_append, anyEq_false_of_all_ne horig, Bool.or_false, hcopy]
  rw [h1]
  exact anyEq_copied fs.dirs src dst hrel

/-! ### Claim theorems -/

/-- C1 counterexample: two distinct identities with the same id and
different non-empty paths (same parent directory and same stem) are mapped
to the same cache folder, so the resolver is not identity-separating for
arbitrary differing paths. -/
theorem chunkCacheFolder_collision :
    ("/a/foo.Rmd" : String) ≠ "/a/foo.txt" ∧
    chunkCacheFolder ["", "scratch"] "/a/foo.Rmd" "x" =
      chunkCacheFolder ["", "scratch"] "/a/foo.txt" "x" := by
  exact ⟨by decide, rfl⟩

/-- C1 (amended): the resolver is deterministic (a pure function of the
identity and the scratch root, so two computations agree), and the
saved/unsaved bifurcation separates: an unsaved identity and a saved
identity with the same id get different cache folders, provided the saved
document's folder is not itself the scratch unsaved-notebooks area with a
stem equal to the id. -/
theorem chunkCacheFolder_deterministic_separating
    (scratch : Path) (p docId : String) (hp : p ≠ "")
    (hsep : (parsePath p).dropLast ≠ scratch ++ ["unsaved-notebooks"] ∨
      stemOf ((parsePath p).getLastD "") ≠ docId) :
    chunkCacheFolder scratch p docId = chunkCacheFolder scratch p docId ∧
    chunkCacheFolder scratch "" docId ≠ chunkCacheFolder scratch p docId := by
  refine ⟨rfl, ?_⟩
  unfold chunkCacheFolder
  rw [if_pos rfl, if_neg hp]
  intro he
  have hbase : scratch ++ ["unsaved-notebooks"] = (parsePath p).dropLast := by
    have h2 := congrArg List.dropLast he
    simpa using h2
  have hlast : docId ++ ".Rnb.cached" =
      stemOf ((parsePath p).getLastD "") ++ ".Rnb.cached" := by
    have h2 := congrArg List.getLast? he
    simpa using h2
  rcases hsep with h | h
  · exact h hbase.symm
  · exact h (strCancelRight ".Rnb.cached" hlast).symm

/-- Witness for the amended C1 at a concrete saved/unsaved pair. -/
theorem chunkCacheFolder_separating_witness :
    chunkCacheFolder ["", "s"] "" "d1" ≠ chunkCacheFolder ["", "s"] "/h/doc.Rmd" "d1" :=
  (chunkCacheFolder_deterministic_separating ["", "s"] "/h/doc.Rmd" "d1"
    (by decide) (Or.inl (by decide))).2

/-- C5 counterexample: on an identity with no cache folder at all (hence
no sidecar), `getChunkDefs` succeeds but does not yield an empty sequence:
the caller's out-value is left unassigned (`none` in the model), which is
not the empty array. -/
theorem getChunkDefs_absent_counterexample :
    getChunkDefs ⟨[], []⟩ ["", "s"] "/h/doc.Rmd" "d1" = .ok none ∧
    (Except.ok none : Except Err (Option JVal)) ≠ .ok (some (.arr [])) := by
  refine ⟨rfl, ?_⟩
  intro h
  injection h with h2
  exact Option.noConfusion h2

/-- C5 (amended): for every identity whose cache folder contains no
sidecar file, `getChunkDefs` succeeds and leaves the caller's value
unassigned (null), modelled as `.ok none`; callers treat any non-array
value as the absence of definitions. -/
theorem getChunkDefs_absent_ok (fs : FS) (scratch : Path) (docPath docId : String)
    (h : fs.pathExists (chunkDefinitionsPath scratch docPath docId) = false) :
    getChunkDefs fs scratch docPath docId = .ok none := by
  unfold getChunkDefs
  simp [h]

/-- Witness for the amended C5 on an empty filesystem. -/
theorem getChunkDefs_absent_ok_witness :
    getChunkDefs ⟨[], []⟩ ["", "s"] "/h/doc.Rmd" "d1" = .ok none :=
  getChunkDefs_absent_ok ⟨[], []⟩ ["", "s"] "/h/doc.Rmd" "d1" rfl

/-- C7: on a close notification the handler removes the unsaved-notebooks
cache folder of the id entirely (nothing under it survives), and leaves
everything outside that folder — in particular the path-derived cache
folder of a document that had been saved — untouched. -/
theorem onDocRemoved_cleanup (fs : FS) (scratch : Path) (docId : String) :
    (∀ k : Path, isPre (chunkCacheFolder scratch "" docId) k = true →
      (onDocRemoved fs scratch docId).readFile k = none ∧
      (onDocRemoved fs scratch docId).hasDir k = false) ∧
    (∀ k : Path, isPre (chunkCacheFolder scratch "" docId) k = false →
      (onDocRemoved fs scratch docId).readFile k = fs.readFile k ∧
      (onDocRemoved fs scratch docId).hasDir k = fs.hasDir k) := by
  constructor
  · intro k hk
    exact ⟨readFile_removeIfExists_pre fs hk, hasDir_removeIfExists_pre fs hk⟩
  · intro k hk
    exact ⟨readFile_removeIfExists_not_pre fs hk, hasDir_removeIfExists_not_pre fs hk⟩

/-- Witness for C7: closing unsaved doc `d1` removes its artifact, and a
saved document's artifact at another location survives. -/
theorem onDocRemoved_cleanup_witness :
    (onDocRemoved ⟨[(["", "s", "unsaved-notebooks", "d1.Rnb.cached", "a.html"],
          .rawData "A"), (["", "h", "doc.Rnb.cached", "b.html"], .rawData "B")],
        [["", "s", "unsaved-notebooks", "d1.Rnb.cached"], ["", "h", "doc.Rnb.cached"]]⟩
      ["", "s"] "d1").readFile
        ["", "s", "unsaved-notebooks", "d1.Rnb.cached", "a.html"] = none ∧
    (onDocRemoved ⟨[(["", "s", "unsaved-notebooks", "d1.Rnb.cached", "a.html"],
          .rawData "A"), (["", "h", "doc.Rnb.cached", "b.html"], .rawData "B")],
        [["", "s", "unsaved-notebooks", "d1.Rnb.cached"], ["", "h", "doc.Rnb.cached"]]⟩
      ["", "s"] "d1").hasDir ["", "h", "doc.Rnb.cached"] =
      FS.hasDir ⟨[(["", "s", "unsaved-notebooks", "d1.Rnb.cached", "a.html"],
          .rawData "A"), (["", "h", "doc.Rnb.cached", "b.html"], .rawData "B")],
        [["", "s", "unsaved-notebooks", "d1.Rnb.cached"], ["", "h", "doc.Rnb.cached"]]⟩
        ["", "h", "doc.Rnb.cached"] :=
  ⟨((onDocRemoved_cleanup _ ["", "s"] "d1").1
      ["", "s", "unsaved-notebooks", "d1.Rnb.cached", "a.html"] (by decide)).1,
   ((onDocRemoved_cleanup _ ["", "s"] "d1").2
      ["", "h", "doc.Rnb.cached"] (by decide)).2⟩

/-- C9: the output server joins the remaining URI segments verbatim onto
the cache folder without rejecting `..`: this well-formed request's
relative path contains `..` components and its resolved target, once
normalized, lies outside the document's cache folder. -/
theorem handleChunkOutputRequest_traversal :
    handleChunkOutputRequest ["", "s"] [("d1", "/home/u/doc.Rmd")]
        "/chunk_output/d1/../../secret.txt" =
      .ok (.noCacheFile (["", "home", "u", "doc.Rnb.cached"] ++
        ["..", "..", "secret.txt"])) ∧
    isPre ["", "home", "u", "doc.Rnb.cached"]
      (normalizePath (["", "home", "u", "doc.Rnb.cached"] ++
        ["..", "..", "secret.txt"])) = false := by
  exact ⟨rfl, by decide⟩

/-- C10: `refreshChunkOutput` returns success for parsed parameters even
when loading the persisted definitions fails or no sidecar exists, and in
those cases no replay is scheduled — so neither a per-chunk notification
nor the terminating batch-end notification for the request is emitted. -/
theorem refreshChunkOutput_swallows_failures
    (fs : FS) (scratch : Path) (docPath docId requestId : String) :
    (refreshChunkOutput fs scratch docPath docId requestId).1 = .ok () ∧
    (((∃ e, getChunkDefs fs scratch docPath docId = .error e) ∨
        getChunkDefs fs scratch docPath docId = .ok none) →
      (refreshChunkOutput fs scratch docPath docId requestId).2 = none) := by
  constructor
  · cases hg : getChunkDefs fs scratch docPath docId with
    | error e => simp [refreshChunkOutput, hg]
    | ok v =>
      cases v with
      | none => simp [refreshChunkOutput, hg]
      | some w => cases w <;> simp [refreshChunkOutput, hg]
  · intro h
    rcases h with ⟨e, he⟩ | he <;> simp [refreshChunkOutput, he]

/-- Witness for C10 on an empty filesystem (no sidecar). -/
theorem refreshChunkOutput_swallows_failures_witness :
    (refreshChunkOutput ⟨[], []⟩ ["", "s"] "/h/doc.Rmd" "d1" "r1").2 = none :=
  (refreshChunkOutput_swallows_failures ⟨[], []⟩ ["", "s"] "/h/doc.Rmd" "d1" "r1").2
    (Or.inr rfl)

/-- Old definition set of the reconciliation scenario: chunk_ids a, b, c. -/
def reconOldDefs : List JVal :=
  [.obj [("chunk_id", .str "a")], .obj [("chunk_id", .str "b")],
   .obj [("chunk_id", .str "c")]]

/-- New definition set of the reconciliation scenario: chunk_ids b, c, d. -/
def reconNewDefs : List JVal :=
  [.obj [("chunk_id", .str "b")], .obj [("chunk_id", .str "c")],
   .obj [("chunk_id", .str "d")]]

/-- Initial cache state for the reconciliation scenario: the sidecar
records a, b, c; artifacts `a.html`, `a_files/plot.png`, `b.html`,
`c.html` exist (with arbitrary contents); `d.html` does not. -/
def reconFS (ca cp cb cc : String) : FS :=
  ⟨[(["", "p", "doc.Rnb.cached", "chunks.json"],
      .jsonData (.obj [("chunk_definitions", .arr reconOldDefs)])),
    (["", "p", "doc.Rnb.cached", "a.html"], .rawData ca),
    (["", "p", "doc.Rnb.cached", "a_files", "plot.png"], .rawData cp),
    (["", "p", "doc.Rnb.cached", "b.html"], .rawData cb),
    (["", "p", "doc.Rnb.cached", "c.html"], .rawData cc)],
   [["", "p", "doc.Rnb.cached"], ["", "p", "doc.Rnb.cached", "a_files"]]⟩

/-- The state produced by `setChunkDefs` (which always succeeds in the
model, since directory creation cannot fail). -/
def setChunkDefsFS (fs : FS) (scratch : Path) (docPath docId : String)
    (newDefs : List JVal) : FS :=
  match setChunkDefs fs scratch docPath docId newDefs with
  | .ok f => f
  | .error _ => fs

/-- C2: replacing definitions {a,b,c} by {b,c,d} reconciles by set
difference: afterwards `a.html` and `a_files/` (with its contents) are
gone, `b.html` and `c.html` are unchanged, `d.html` still does not exist,
and the sidecar holds the new set. -/
theorem setChunkDefs_reconciliation (ca cp cb cc : String) :
    setChunkDefs (reconFS ca cp cb cc) ["", "s"] "/p/doc.Rmd" "d1" reconNewDefs =
      .ok (setChunkDefsFS (reconFS ca cp cb cc) ["", "s"] "/p/doc.Rmd" "d1"
        reconNewDefs) ∧
    (setChunkDefsFS (reconFS ca cp cb cc) ["", "s"] "/p/doc.Rmd" "d1"
        reconNewDefs).readFile
      (chunkOutputPath ["", "s"] "/p/doc.Rmd" "d1" "a") = none ∧
    (setChunkDefsFS (reconFS ca cp cb cc) ["", "s"] "/p/doc.Rmd" "d1"
        reconNewDefs).hasDir
      (chunkCacheFolder ["", "s"] "/p/doc.Rmd" "d1" ++ ["a_files"]) = false ∧
    (setChunkDefsFS (reconFS ca cp cb cc) ["", "s"] "/p/doc.Rmd" "d1"
        reconNewDefs).readFile
      (chunkCacheFolder ["", "s"] "/p/doc.Rmd" "d1" ++ ["a_files", "plot.png"]) =
      none ∧
    (setChunkDefsFS (reconFS ca cp cb cc) ["", "s"] "/p/doc.Rmd" "d1"
        reconNewDefs).readFile
      (chunkOutputPath ["", "s"] "/p/doc.Rmd" "d1" "b") = some (.rawData cb) ∧
    (setChunkDefsFS (reconFS ca cp cb cc) ["", "s"] "/p/doc.Rmd" "d1"
        reconNewDefs).readFile
      (chunkOutputPath ["", "s"] "/p/doc.Rmd" "d1" "c") = some (.rawData cc) ∧
    (setChunkDefsFS (reconFS ca cp cb cc) ["", "s"] "/p/doc.Rmd" "d1"
        reconNewDefs).readFile
      (chunkOutputPath ["", "s"] "/p/doc.Rmd" "d1" "d") = none ∧
    (setChunkDefsFS (reconFS ca cp cb cc) ["", "s"] "/p/doc.Rmd" "d1"
        reconNewDefs).readFile
      (chunkDefinitionsPath ["", "s"] "/p/doc.Rmd" "d1") =
      some (.jsonData (.obj [("chunk_definitions", .arr reconNewDefs)])) :=
  ⟨rfl, rfl, rfl, rfl, rfl, rfl, rfl, rfl⟩

/-- C3 counterexample: with duplicate chunk_ids in the old set,
`std::set_difference`'s multiset semantics leaves one copy of the id
stale, so the reconciler removes the artifact of an id that occurs in the
new definition set (old ids [x, x], new ids [x]). -/
theorem cleanChunks_duplicate_counterexample :
    "x" ∈ extractChunkIds [.obj [("chunk_id", .str "x")]] ∧
    (cleanChunks ⟨[(["c", "x.html"], .rawData "H")], [["c"]]⟩ ["c"]
      [.obj [("chunk_id", .str "x")], .obj [("chunk_id", .str "x")]]
      [.obj [("chunk_id", .str "x")]]).readFile ["c", "x.html"] = none := by
  exact ⟨by decide, rfl⟩

/-- C3 (amended): when the old definition sequence has no duplicate
chunk_ids, the reconciler never removes the artifact file or the asset
directory of any chunk_id that occurs in the new definition set. -/
theorem cleanChunks_preserves_new_ids (fs : FS) (cacheDir : Path)
    (oldDefs newDefs : List JVal) (cid : String)
    (hnd : (extractChunkIds oldDefs).Nodup)
    (hm : cid ∈ extractChunkIds newDefs) :
    (cleanChunks fs cacheDir oldDefs newDefs).readFile
        (cacheDir ++ [cid ++ ".html"]) =
      fs.readFile (cacheDir ++ [cid ++ ".html"]) ∧
    (cleanChunks fs cacheDir oldDefs newDefs).hasDir
        (cacheDir ++ [cid ++ "_files"]) =
      fs.hasDir (cacheDir ++ [cid ++ "_files"]) := by
  have hstale : ∀ s ∈ staleIdsOf oldDefs newDefs, s ≠ cid := by
    intro s hs he
    subst he
    exact not_mem_staleIds hnd hm hs
  constructor
  · exact (foldl_removeStale_preserves cacheDir _ fs (fun s hs =>
      ⟨isPre_snoc_of_ne (strSnoc_ne ".html" (hstale s hs)),
       isPre_snoc_of_ne (html_ne_files cid s).symm⟩)).1
  · exact (foldl_removeStale_preserves cacheDir _ fs (fun s hs =>
      ⟨isPre_snoc_of_ne (html_ne_files s cid),
       isPre_snoc_of_ne (strSnoc_ne "_files" (hstale s hs))⟩)).2

/-- Witness for the amended C3: old = new = [a], nothing is removed. -/
theorem cleanChunks_preserves_new_ids_witness :
    (cleanChunks ⟨[(["c", "a.html"], .rawData "H")], [["c"]]⟩ ["c"]
      [.obj [("chunk_id", .str "a")]] [.obj [("chunk_id", .str "a")]]).readFile
        (["c"] ++ ["a" ++ ".html"]) =
      FS.readFile ⟨[(["c", "a.html"], .rawData "H")], [["c"]]⟩
        (["c"] ++ ["a" ++ ".html"]) :=
  (cleanChunks_preserves_new_ids ⟨[(["c", "a.html"], .rawData "H")], [["c"]]⟩
    ["c"] [.obj [("chunk_id", .str "a")]] [.obj [("chunk_id", .str "a")]] "a"
    (by decide) (by decide)).1

/-- C8: for a request with enough path segments and a known document, the
response is marked cacheable exactly when the first segment of the
relative path is the shared-library directory `lib`; for every other
first segment the handler sets the explicit no-cache headers. -/
theorem handleChunkOutputRequest_cache_policy
    (scratch : Path) (db : List (String × String)) (uri path : String)
    (h4 : 4 ≤ (parsePath uri).length)
    (hdb : getPath db ((parsePath uri).getD 2 "") = .ok path) :
    (((parsePath uri).drop 3).getD 0 "" = "lib" →
      handleChunkOutputRequest scratch db uri =
        .ok (.cacheableFile (chunkCacheFolder scratch path
          ((parsePath uri).getD 2 "") ++ (parsePath uri).drop 3))) ∧
    (((parsePath uri).drop 3).getD 0 "" ≠ "lib" →
      handleChunkOutputRequest scratch db uri =
        .ok (.noCacheFile (chunkCacheFolder scratch path
          ((parsePath uri).getD 2 "") ++ (parsePath uri).drop 3))) ∧
    (∀ t, handleChunkOutputRequest scratch db uri = .ok (.cacheableFile t) →
      ((parsePath uri).drop 3).getD 0 "" = "lib") := by
  have hlen : ¬ ((parsePath uri).length < 4) := by omega
  have hcomp : handleChunkOutputRequest scratch db uri =
      if ((parsePath uri).drop 3).getD 0 "" = "lib" then
        .ok (.cacheableFile (chunkCacheFolder scratch path
          ((parsePath uri).getD 2 "") ++ (parsePath uri).drop 3))
      else
        .ok (.noCacheFile (chunkCacheFolder scratch path
          ((parsePath uri).getD 2 "") ++ (parsePath uri).drop 3)) := by
    simp only [handleChunkOutputRequest]
    rw [if_neg hlen, hdb]
  refine ⟨fun hl => by rw [hcomp, if_pos hl],
    fun hl => by rw [hcomp, if_neg hl], ?_⟩
  intro t ht
  by_cases hl : ((parsePath uri).drop 3).getD 0 "" = "lib"
  · exact hl
  · rw [hcomp, if_neg hl] at ht
    exact absurd ht (by simp)

/-- Witness for C8: a `lib/` asset request is served cacheable. -/
theorem handleChunkOutputRequest_cache_policy_witness :
    handleChunkOutputRequest ["", "s"] [("d1", "/h/doc.Rmd")]
        "/chunk_output/d1/lib/x.js" =
      .ok (.cacheableFile (chunkCacheFolder ["", "s"] "/h/doc.Rmd"
          ((parsePath "/chunk_output/d1/lib/x.js").getD 2 "") ++
        (parsePath "/chunk_output/d1/lib/x.js").drop 3)) :=
  (handleChunkOutputRequest_cache_policy ["", "s"] [("d1", "/h/doc.Rmd")]
    "/chunk_output/d1/lib/x.js" "/h/doc.Rmd" (by decide) rfl).1 rfl

/-! ### Atomicity of the sidecar write (trace lemmas and C4) -/

theorem getLastD_cons_of_ne_nil {α : Type} (a : α) {m : List α} (d : α)
    (hm : m ≠ []) : (a :: m).getLastD d = m.getLastD d := by
  rw [List.getLastD_eq_getLast?, List.getLastD_eq_getLast?]
  cases m with
  | nil => exact absurd rfl hm
  | cons b bs => rw [List.getLast?_cons_cons]

theorem getLastD_cons_append {α : Type} (a : α) (l m : List α) (d : α)
    (hm : m ≠ []) : (a :: (l ++ m)).getLastD d = m.getLastD d := by
  rw [List.getLastD_eq_getLast?, List.getLastD_eq_getLast?]
  have h1 : a :: (l ++ m) = (a :: l) ++ m := rfl
  rw [h1, List.getLast?_append_of_ne_nil _ hm]

theorem removeStaleTrace_ne_nil (cd : Path) (ids : List String) (f : FS) :
    removeStaleTrace cd ids f ≠ [] := by
  cases ids <;> simp [removeStaleTrace]

theorem removeStaleTrace_preserves (cd : Path) (ids : List String) (f : FS)
    {k : Path}
    (hk : ∀ s : String, isPre (cd ++ [s ++ ".html"]) k = false ∧
      isPre (cd ++ [s ++ "_files"]) k = false) :
    ∀ st ∈ removeStaleTrace cd ids f, st.readFile k = f.readFile k := by
  induction ids generalizing f with
  | nil =>
    intro st hst
    have h1 : st = f := List.mem_singleton.mp hst
    rw [h1]
  | cons sid rest ih =>
    intro st hst
    simp only [removeStaleTrace, List.mem_cons] at hst
    rcases hst with rfl | rfl | hst
    · rfl
    · exact readFile_removeIfExists_not_pre f (hk sid).1
    · have h1 := ih ((f.removeIfExists (cd ++ [sid ++ ".html"])).removeIfExists
        (cd ++ [sid ++ "_files"])) st hst
      rw [h1, readFile_removeIfExists_not_pre _ (hk sid).2,
        readFile_removeIfExists_not_pre f (hk sid).1]

theorem removeStaleTrace_getLastD (cd : Path) (ids : List String) (f d : FS) :
    (removeStaleTrace cd ids f).getLastD d = ids.foldl (removeStale cd) f := by
  induction ids generalizing f with
  | nil => rfl
  | cons sid rest ih =>
    simp only [removeStaleTrace, List.foldl_cons]
    rw [getLastD_cons_of_ne_nil _ _ (by simp),
      getLastD_cons_of_ne_nil _ _ (removeStaleTrace_ne_nil cd rest _)]
    exact ih _

/-- C4: during a `setChunkDefs` call, a reader of the sidecar file
observes at every intermediate filesystem state either the complete
previous sidecar content or the complete new content, never a partial
write: the write goes to a temporary path that is renamed into place
(modelled from the spec, as `core::writeStringToFile` is outside this
source file), and the final state holds exactly the new content. -/
theorem setChunkDefs_sidecar_atomic (fs : FS) (scratch : Path)
    (docPath docId : String) (newDefs : List JVal) :
    (∀ st ∈ setChunkDefsTrace fs scratch docPath docId newDefs,
      st.readFile (chunkDefinitionsPath scratch docPath docId) =
          fs.readFile (chunkDefinitionsPath scratch docPath docId) ∨
        st.readFile (chunkDefinitionsPath scratch docPath docId) =
          some (.jsonData (.obj [("chunk_definitions", .arr newDefs)]))) ∧
    ((setChunkDefsTrace fs scratch docPath docId newDefs).getLastD fs).readFile
        (chunkDefinitionsPath scratch docPath docId) =
      some (.jsonData (.obj [("chunk_definitions", .arr newDefs)])) := by
  have hk : ∀ s : String,
      isPre (chunkCacheFolder scratch docPath docId ++ [s ++ ".html"])
          (chunkDefinitionsPath scratch docPath docId) = false ∧
      isPre (chunkCacheFolder scratch docPath docId ++ [s ++ "_files"])
          (chunkDefinitionsPath scratch docPath docId) = false := fun s =>
    ⟨isPre_snoc_of_ne (html_ne_chunksJson s),
     isPre_snoc_of_ne (files_ne_chunksJson s)⟩
  have hdrop : (chunkDefinitionsPath scratch docPath docId).dropLast =
      chunkCacheFolder scratch docPath docId := by
    rw [chunkDefinitionsPath]
    simp
  have hlastK : (chunkDefinitionsPath scratch docPath docId).getLastD "" =
      "chunks.json" := by
    rw [chunkDefinitionsPath, List.getLastD_eq_getLast?]
    simp
  have htmp_pre : isPre ((chunkDefinitionsPath scratch docPath docId).dropLast ++
      [(chunkDefinitionsPath scratch docPath docId).getLastD "" ++ ".tmp"])
      (chunkDefinitionsPath scratch docPath docId) = false := by
    rw [hdrop, hlastK]
    exact isPre_snoc_of_ne (by decide)
  have htmp_ne : (chunkDefinitionsPath scratch docPath docId).dropLast ++
      [(chunkDefinitionsPath scratch docPath docId).getLastD "" ++ ".tmp"] ≠
      chunkDefinitionsPath scratch docPath docId := by
    intro h
    rw [h, isPre_refl] at htmp_pre
    exact Bool.noConfusion htmp_pre
  have hfs1read : (fs.ensureDirectory
      (chunkDefinitionsPath scratch docPath docId).dropLast).readFile
      (chunkDefinitionsPath scratch docPath docId) =
      fs.readFile (chunkDefinitionsPath scratch docPath docId) :=
    readFile_ensureDirectory _ _ _
  have hclean : ∀ st ∈ (match getChunkDefs (fs.ensureDirectory
        (chunkDefinitionsPath scratch docPath docId).dropLast)
        scratch docPath docId with
      | .ok (some (.arr olds)) =>
        removeStaleTrace (chunkCacheFolder scratch docPath docId)
          (staleIdsOf olds newDefs)
          (fs.ensureDirectory (chunkDefinitionsPath scratch docPath docId).dropLast)
      | _ => [fs.ensureDirectory
          (chunkDefinitionsPath scratch docPath docId).dropLast]),
      st.readFile (chunkDefinitionsPath scratch docPath docId) =
        fs.readFile (chunkDefinitionsPath scratch docPath docId) := by
    cases hget : getChunkDefs (fs.ensureDirectory
        (chunkDefinitionsPath scratch docPath docId).dropLast)
        scratch docPath docId with
    | error e =>
      intro st hst
      rw [List.mem_singleton.mp hst]
      exact hfs1read
    | ok v =>
      cases v with
      | none =>
        intro st hst
        rw [List.mem_singleton.mp hst]
        exact hfs1read
      | some w =>
        cases w with
        | arr olds =>
          intro st hst
          exact (removeStaleTrace_preserves _ _ _ (fun s => hk s) st hst).trans
            hfs1read
        | null =>
          intro st hst
          rw [List.mem_singleton.mp hst]
          exact hfs1read
        | jbool b =>
          intro st hst
          rw [List.mem_singleton.mp hst]
          exact hfs1read
        | num n =>
          intro st hst
          rw [List.mem_singleton.mp hst]
          exact hfs1read
        | str s =>
          intro st hst
          rw [List.mem_singleton.mp hst]
          exact hfs1read
        | obj fields =>
          intro st hst
          rw [List.mem_singleton.mp hst]
          exact hfs1read
  have hlastclean : ((match getChunkDefs (fs.ensureDirectory
        (chunkDefinitionsPath scratch docPath docId).dropLast)
        scratch docPath docId with
      | .ok (some (.arr olds)) =>
        removeStaleTrace (chunkCacheFolder scratch docPath docId)
          (staleIdsOf olds newDefs)
          (fs.ensureDirectory (chunkDefinitionsPath scratch docPath docId).dropLast)
      | _ => [fs.ensureDirectory
          (chunkDefinitionsPath scratch docPath docId).dropLast]).getLastD
        (fs.ensureDirectory
          (chunkDefinitionsPath scratch docPath docId).dropLast)).readFile
      (chunkDefinitionsPath scratch docPath docId) =
      fs.readFile (chunkDefinitionsPath scratch docPath docId) := by
    cases hget : getChunkDefs (fs.ensureDirectory
        (chunkDefinitionsPath scratch docPath docId).dropLast)
        scratch docPath docId with
    | error e => exact hfs1read
    | ok v =>
      cases v with
      | none => exact hfs1read
      | some w =>
        cases w with
        | arr olds =>
          rw [removeStaleTrace_getLastD]
          exact (foldl_removeStale_preserves _ _ _ (fun s _ => hk s)).1.trans
            hfs1read
        | null => exact hfs1read
        | jbool b => exact hfs1read
        | num n => exact hfs1read
        | str s => exact hfs1read
        | obj fields => exact hfs1read
  constructor
  · intro st hst
    simp only [setChunkDefsTrace, List.mem_cons, List.mem_append] at hst
    rcases hst with rfl | hst | hst
    · exact Or.inl rfl
    · exact Or.inl (hclean st hst)
    · simp only [writeFileViaTempTrace, List.mem_cons, List.not_mem_nil,
        or_false] at hst
      rcases hst with rfl | rfl | rfl
      · exact Or.inl hlastclean
      · left
        rw [readFile_writeFile, if_neg htmp_ne]
        exact hlastclean
      · right
        rw [readFile_removeIfExists_not_pre _ htmp_pre, readFile_writeFile,
          if_pos rfl]
  · simp only [setChunkDefsTrace]
    rw [getLastD_cons_append _ _ _ _ (by simp [writeFileViaTempTrace])]
    show ((((_ : FS).writeFile _ _).writeFile _ _).removeIfExists _).readFile _ = _
    rw [readFile_removeIfExists_not_pre _ htmp_pre, readFile_writeFile,
      if_pos rfl]

/-- Witness for C4: the initial state of the trace on an empty filesystem
satisfies the reader-visibility disjunction, and the final state holds the
new sidecar content. -/
theorem setChunkDefs_sidecar_atomic_witness :
    ((FS.readFile ⟨[], []⟩ (chunkDefinitionsPath ["", "s"] "/p/doc.Rmd" "d1") =
        FS.readFile ⟨[], []⟩ (chunkDefinitionsPath ["", "s"] "/p/doc.Rmd" "d1") ∨
      FS.readFile ⟨[], []⟩ (chunkDefinitionsPath ["", "s"] "/p/doc.Rmd" "d1") =
        some (.jsonData (.obj [("chunk_definitions", .arr [])]))) ∧
    ((setChunkDefsTrace ⟨[], []⟩ ["", "s"] "/p/doc.Rmd" "d1" []).getLastD
        ⟨[], []⟩).readFile (chunkDefinitionsPath ["", "s"] "/p/doc.Rmd" "d1") =
      some (.jsonData (.obj [("chunk_definitions", .arr [])]))) :=
  ⟨(setChunkDefs_sidecar_atomic ⟨[], []⟩ ["", "s"] "/p/doc.Rmd" "d1" []).1
      ⟨[], []⟩ (List.mem_cons_self _ _),
   (setChunkDefs_sidecar_atomic ⟨[], []⟩ ["", "s"] "/p/doc.Rmd" "d1" []).2⟩

/-- C6: on a rename notification, the migration handler (i) is a no-op
whenever the old cache folder does not exist or the new cache folder
already exists; otherwise, on a well-formed state (nothing on disk at or
under the not-yet-existing new folder, and neither cache folder inside
the other), (ii) if the old path was empty it moves the whole folder:
nothing remains at or under the old folder, and the new folder holds
exactly the old folder's former files and directories; (iii) if the old
path was non-empty it copies recursively: both folders exist afterwards
with identical contents, the old folder unchanged. -/
theorem onDocRenamed_migration (fs : FS) (scratch : Path)
    (oldPath newPath docId : String) (src dst : Path)
    (hsrc : src = chunkCacheFolder scratch oldPath docId)
    (hdst : dst = chunkCacheFolder scratch newPath docId) :
    ((fs.pathExists src = false ∨ fs.pathExists dst = true) →
      onDocRenamed fs scratch oldPath newPath docId = fs) ∧
    (fs.pathExists src = true → fs.pathExists dst = false →
     isPre src dst = false → isPre dst src = false →
     (∀ e ∈ fs.files, isPre dst e.1 = false) →
     (∀ d ∈ fs.dirs, isPre dst d = false) →
     ((oldPath = "" →
       (∀ k, isPre src k = true →
         (onDocRenamed fs scratch oldPath newPath docId).readFile k = none ∧
         (onDocRenamed fs scratch oldPath newPath docId).hasDir k = false) ∧
       (∀ rel, (onDocRenamed fs scratch oldPath newPath docId).readFile
           (dst ++ rel) = fs.readFile (src ++ rel)) ∧
       (∀ rel, (onDocRenamed fs scratch oldPath newPath docId).hasDir
           (dst ++ rel) = fs.hasDir (src ++ rel))) ∧
      (oldPath ≠ "" →
       (onDocRenamed fs scratch oldPath newPath docId).pathExists src = true ∧
       (onDocRenamed fs scratch oldPath newPath docId).pathExists dst = true ∧
       (∀ rel, rel ≠ [] →
         (onDocRenamed fs scratch oldPath newPath docId).readFile (dst ++ rel) =
             (onDocRenamed fs scratch oldPath newPath docId).readFile
               (src ++ rel) ∧
           (onDocRenamed fs scratch oldPath newPath docId).readFile
               (src ++ rel) = fs.readFile (src ++ rel)) ∧
       (∀ rel, rel ≠ [] →
         (onDocRenamed fs scratch oldPath newPath docId).hasDir (dst ++ rel) =
             (onDocRenamed fs scratch oldPath newPath docId).hasDir
               (src ++ rel) ∧
           (onDocRenamed fs scratch oldPath newPath docId).hasDir
               (src ++ rel) = fs.hasDir (src ++ rel))))) := by
  subst hsrc hdst
  constructor
  · intro h
    rcases h with h | h <;> simp [onDocRenamed, h]
  · intro hex hnew hsd hds hfw hdw
    have hcond : (!(fs.pathExists (chunkCacheFolder scratch oldPath docId)) ||
        fs.pathExists (chunkCacheFolder scratch newPath docId)) = false := by
      rw [hex, hnew]
      rfl
    constructor
    · intro hold
      have honc : onDocRenamed fs scratch oldPath newPath docId =
          fs.moveDir (chunkCacheFolder scratch oldPath docId)
            (chunkCacheFolder scratch newPath docId) := by
        simp only [onDocRenamed, hcond, Bool.false_eq_true, if_false]
        rw [if_pos hold]
      refine ⟨?_, ?_, ?_⟩
      · intro k hk
        rw [honc]
        exact ⟨lookupFile_moveDir_src_none fs.files _ _ hsd hds hk,
          anyEq_moveDir_src_false fs.dirs _ _ hsd hds hk⟩
      · intro rel
        rw [honc]
        exact lookupFile_moveDir fs.files _ _ hfw rel
      · intro rel
        rw [honc]
        exact anyEq_moveDir fs.dirs _ _ hdw rel
    · intro hold
      have honc : onDocRenamed fs scratch oldPath newPath docId =
          copyCache fs (chunkCacheFolder scratch oldPath docId)
            (chunkCacheFolder scratch newPath docId) := by
        simp only [onDocRenamed, hcond, Bool.false_eq_true, if_false]
        rw [if_neg hold]
      refine ⟨?_, ?_, ?_, ?_⟩
      · rw [honc]
        unfold FS.pathExists at hex ⊢
        rw [copyCache_readFile_outside fs _ _ hds, copyCache_hasDir_outside fs _ _ hds]
        exact hex
      · rw [honc]
        unfold FS.pathExists
        rw [copyCache_hasDir_dst]
        simp
      · intro rel hrel
        rw [honc]
        have hsrel : isPre (chunkCacheFolder scratch newPath docId)
            (chunkCacheFolder scratch oldPath docId ++ rel) = false :=
          notPre_of_sep hsd hds rel
        refine ⟨?_, ?_⟩
        · rw [copyCache_readFile_rel fs _ _ hrel hfw,
            copyCache_readFile_outside fs _ _ hsrel]
        · rw [copyCache_readFile_outside fs _ _ hsrel]
      · intro rel hrel
        rw [honc]
        have hsrel : isPre (chunkCacheFolder scratch newPath docId)
            (chunkCacheFolder scratch oldPath docId ++ rel) = false :=
          notPre_of_sep hsd hds rel
        refine ⟨?_, ?_⟩
        · rw [copyCache_hasDir_rel fs _ _ hrel hsd hdw,
            copyCache_hasDir_outside fs _ _ hsrel]
        · rw [copyCache_hasDir_outside fs _ _ hsrel]

/-- Witness for C6: a move for a previously unsaved document, and a copy
for a previously saved one, each at a concrete state. -/
theorem onDocRenamed_migration_witness :
    (onDocRenamed ⟨[(["", "s", "unsaved-notebooks", "d1.Rnb.cached", "a.html"],
          .rawData "A")], [["", "s", "unsaved-notebooks", "d1.Rnb.cached"]]⟩
        ["", "s"] "" "/h/doc.Rmd" "d1").readFile
      (["", "h", "doc.Rnb.cached"] ++ ["a.html"]) =
      FS.readFile ⟨[(["", "s", "unsaved-notebooks", "d1.Rnb.cached", "a.html"],
          .rawData "A")], [["", "s", "unsaved-notebooks", "d1.Rnb.cached"]]⟩
        (["", "s", "unsaved-notebooks", "d1.Rnb.cached"] ++ ["a.html"]) ∧
    (onDocRenamed ⟨[(["", "a", "doc.Rnb.cached", "b.html"], .rawData "B")],
        [["", "a", "doc.Rnb.cached"]]⟩
        ["", "s"] "/a/doc.Rmd" "/h/doc2.Rmd" "d2").readFile
      (["", "h", "doc2.Rnb.cached"] ++ ["b.html"]) =
      FS.readFile ⟨[(["", "a", "doc.Rnb.cached", "b.html"], .rawData "B")],
        [["", "a", "doc.Rnb.cached"]]⟩
        (["", "a", "doc.Rnb.cached"] ++ ["b.html"]) :=
  ⟨((onDocRenamed_migration
      ⟨[(["", "s", "unsaved-notebooks", "d1.Rnb.cached", "a.html"], .rawData "A")],
        [["", "s", "unsaved-notebooks", "d1.Rnb.cached"]]⟩
      ["", "s"] "" "/h/doc.Rmd" "d1" _ _ rfl rfl).2
      rfl rfl (by decide) (by decide) (by decide) (by decide)).1 rfl
      |>.2.1 ["a.html"],
   by
    have h := ((onDocRenamed_migration
        ⟨[(["", "a", "doc.Rnb.cached", "b.html"], .rawData "B")],
          [["", "a", "doc.Rnb.cached"]]⟩
        ["", "s"] "/a/doc.Rmd" "/h/doc2.Rmd" "d2" _ _ rfl rfl).2
        rfl rfl (by decide) (by decide) (by decide) (by decide)).2
        (by decide) |>.2.2.1 ["b.html"] (by decide)
    exact h.1.trans h.2⟩

end RmdNotebook
